import Mathlib

/-!
Verification of the behavioral contract of the ordered key-value store
exercised by `src/examples/main.cc`.  The repository contains only the
black-box test harness; the engine it tests (Store, snapshots, iterators,
the default bytewise comparator, the builtin bloom filter) is modelled
from the specification, while `TwoPartComparator` and `CustomFilterPolicy`
are embedded directly from `src/examples/main.cc`.
-/

namespace LevelDB

/-- Byte strings: keys and values are immutable byte sequences (spec section 3),
represented as lists of characters. -/
abbrev Str := List Char

/-- Kind of a committed entry: a Put carrying a value, or a Delete
(spec section 3, Entry). -/
inductive EntryKind where
  | putv (v : Str)
  | delv
deriving DecidableEq

/-- A single mutation of a batch: Put(key, value) or Delete(key)
(spec section 4.1). -/
inductive WriteOp where
  | put (k v : Str)
  | del (k : Str)
deriving DecidableEq

/-- The key a mutation touches. -/
def opKey : WriteOp → Str
  | .put k _ => k
  | .del k => k

/-- Modelled from the spec: the Store state (section 3), whose implementation is
missing from src/ (only the test harness is in the repository).  A monotonically
increasing sequence number and the list of committed entries
(key, sequence, kind), newest first. -/
structure StoreState where
  seq : Nat
  log : List (Str × Nat × EntryKind)
deriving DecidableEq

/-- The store holding no entries at sequence number zero. -/
def emptyStore : StoreState := { seq := 0, log := [] }

/-- Modelled from the spec: committing one entry assigns the next sequence
number (section 3, Sequence Number; section 4.2). -/
def applyEntry (st : StoreState) (op : WriteOp) : StoreState :=
  match op with
  | .put k v => { seq := st.seq + 1, log := (k, st.seq + 1, .putv v) :: st.log }
  | .del k => { seq := st.seq + 1, log := (k, st.seq + 1, .delv) :: st.log }

/-- Modelled from the spec: Write(batch) commits all entries of the batch as one
atomic transition, assigning consecutive sequence numbers; Put and Delete are
single-entry batches (sections 4.1, 4.2). -/
def writeBatch (st : StoreState) (b : List WriteOp) : StoreState :=
  b.foldl applyEntry st

/-- Modelled from the spec: resolution of a key at a visibility bound
(section 3, Entry): the value of the highest-sequence entry for the key whose
sequence is at most the bound; a Delete or no entry yields not-found.  The log
is newest first, so the first visible match is the highest-sequence one. -/
def lookupLog (bound : Nat) (k : Str) : List (Str × Nat × EntryKind) → Option Str
  | [] => none
  | (k', s, e) :: rest =>
    if k' = k ∧ s ≤ bound then
      match e with
      | .putv v => some v
      | .delv => none
    else lookupLog bound k rest

/-- Modelled from the spec: Get with a snapshot uses the snapshot's pinned
sequence number as the visibility bound (section 4.3). -/
def dbGetAt (st : StoreState) (bound : Nat) (k : Str) : Option Str :=
  lookupLog bound k st.log

/-- Modelled from the spec: Get without a snapshot uses the latest committed
sequence number (section 4.3). -/
def dbGet (st : StoreState) (k : Str) : Option Str :=
  dbGetAt st st.seq k

/-- Modelled from the spec: GetSnapshot captures the current latest sequence
number and pins it (section 4.4). -/
def getSnapshot (st : StoreState) : Nat := st.seq

/-- Status kinds reported by the store (spec section 7). -/
inductive Status where
  | ok
  | notFound
  | invalidArgument
  | ioError
  | corruption
deriving DecidableEq

/-- Status of a Get as observed by callers: ok when a value is found, NotFound
otherwise (spec sections 4.3 and 7). -/
def getStatus (st : StoreState) (k : Str) : Status :=
  match dbGet st k with
  | some _ => .ok
  | none => .notFound

/-- Every committed entry's sequence number is at most the store's current
sequence number (spec section 3 invariants). -/
def wellFormed (st : StoreState) : Prop :=
  ∀ e ∈ st.log, e.2.1 ≤ st.seq

theorem wellFormed_emptyStore : wellFormed emptyStore := by
  intro e he
  simp [emptyStore] at he

theorem wellFormed_applyEntry {st : StoreState} (h : wellFormed st) (op : WriteOp) :
    wellFormed (applyEntry st op) := by
  cases op with
  | put k v =>
    intro e he
    simp only [applyEntry] at he ⊢
    rcases List.mem_cons.mp he with rfl | he
    · exact Nat.le_refl _
    · exact Nat.le_trans (h e he) (Nat.le_succ _)
  | del k =>
    intro e he
    simp only [applyEntry] at he ⊢
    rcases List.mem_cons.mp he with rfl | he
    · exact Nat.le_refl _
    · exact Nat.le_trans (h e he) (Nat.le_succ _)

theorem seq_le_applyEntry (st : StoreState) (op : WriteOp) :
    st.seq ≤ (applyEntry st op).seq := by
  cases op <;> exact Nat.le_succ _

theorem wellFormed_writeBatch : ∀ (b : List WriteOp) (st : StoreState),
    wellFormed st → wellFormed (writeBatch st b) := by
  intro b
  induction b with
  | nil => intro st h; exact h
  | cons op rest ih =>
    intro st h
    exact ih (applyEntry st op) (wellFormed_applyEntry h op)

theorem seq_le_writeBatch : ∀ (b : List WriteOp) (st : StoreState),
    st.seq ≤ (writeBatch st b).seq := by
  intro b
  induction b with
  | nil => intro st; exact Nat.le_refl _
  | cons op rest ih =>
    intro st
    exact Nat.le_trans (seq_le_applyEntry st op) (ih (applyEntry st op))

/-- Reads at a bound below the current sequence are unaffected by a newly
committed entry: the new entry's sequence exceeds the bound. -/
theorem dbGetAt_applyEntry_of_bound_le {st : StoreState} {bound : Nat}
    (hb : bound ≤ st.seq) (op : WriteOp) (k : Str) :
    dbGetAt (applyEntry st op) bound k = dbGetAt st bound k := by
  cases op with
  | put k' v =>
    simp only [applyEntry, dbGetAt, lookupLog]
    rw [if_neg]
    rintro ⟨-, hs⟩
    omega
  | del k' =>
    simp only [applyEntry, dbGetAt, lookupLog]
    rw [if_neg]
    rintro ⟨-, hs⟩
    omega

/-- A snapshot's view is immutable: reads at a pinned bound are unaffected by
any batch committed afterwards (spec section 3 invariants, section 4.4). -/
theorem dbGetAt_writeBatch_of_bound_le : ∀ (b : List WriteOp) (st : StoreState)
    {bound : Nat}, bound ≤ st.seq → ∀ k,
    dbGetAt (writeBatch st b) bound k = dbGetAt st bound k := by
  intro b
  induction b with
  | nil => intro st bound _ k; rfl
  | cons op rest ih =>
    intro st bound hb k
    have h1 : bound ≤ (applyEntry st op).seq :=
      Nat.le_trans hb (seq_le_applyEntry st op)
    have h2 : dbGetAt (writeBatch (applyEntry st op) rest) bound k
        = dbGetAt (applyEntry st op) bound k := ih _ h1 k
    have h3 : dbGetAt (applyEntry st op) bound k = dbGetAt st bound k :=
      dbGetAt_applyEntry_of_bound_le hb op k
    exact h2.trans h3

/-- In a well-formed log, raising the visibility bound above the current
sequence number does not change resolution. -/
theorem lookupLog_eq_of_wf : ∀ (log : List (Str × Nat × EntryKind)) (seq bound : Nat),
    (∀ e ∈ log, e.2.1 ≤ seq) → seq ≤ bound → ∀ k,
    lookupLog bound k log = lookupLog seq k log := by
  intro log
  induction log with
  | nil => intro seq bound _ _ k; rfl
  | cons e rest ih =>
    intro seq bound hwf hb k
    obtain ⟨k', s, kind⟩ := e
    have hs : s ≤ seq := hwf (k', s, kind) (List.mem_cons_self _ _)
    simp only [lookupLog]
    have hiff : (k' = k ∧ s ≤ bound) ↔ (k' = k ∧ s ≤ seq) := by
      constructor
      · rintro ⟨h1, -⟩; exact ⟨h1, hs⟩
      · rintro ⟨h1, h2⟩; exact ⟨h1, Nat.le_trans h2 hb⟩
    by_cases hc : k' = k ∧ s ≤ seq
    · rw [if_pos (hiff.mpr hc), if_pos hc]
    · rw [if_neg (fun h => hc (hiff.mp h)), if_neg hc]
      exact ih seq bound (fun e he => hwf e (List.mem_cons_of_mem _ he)) hb k

/-- Committing an entry for a different key does not change the visible value
of `k` in a well-formed store. -/
theorem dbGet_applyEntry_other {st : StoreState} (hwf : wellFormed st)
    {op : WriteOp} {k : Str} (hk : opKey op ≠ k) :
    dbGet (applyEntry st op) k = dbGet st k := by
  cases op with
  | put k' v =>
    simp only [opKey] at hk
    simp only [dbGet, dbGetAt, applyEntry, lookupLog]
    rw [if_neg (fun h => hk h.1)]
    exact lookupLog_eq_of_wf st.log st.seq (st.seq + 1) hwf (Nat.le_succ _) k
  | del k' =>
    simp only [opKey] at hk
    simp only [dbGet, dbGetAt, applyEntry, lookupLog]
    rw [if_neg (fun h => hk h.1)]
    exact lookupLog_eq_of_wf st.log st.seq (st.seq + 1) hwf (Nat.le_succ _) k

/-- Committing a batch none of whose entries touches `k` does not change the
visible value of `k` in a well-formed store. -/
theorem dbGet_writeBatch_other : ∀ (ops : List WriteOp) (st : StoreState),
    wellFormed st → ∀ {k : Str}, (∀ op ∈ ops, opKey op ≠ k) →
    dbGet (writeBatch st ops) k = dbGet st k := by
  intro ops
  induction ops with
  | nil => intro st _ k _; rfl
  | cons op rest ih =>
    intro st hwf k hops
    have h1 : dbGet (writeBatch (applyEntry st op) rest) k
        = dbGet (applyEntry st op) k :=
      ih (applyEntry st op) (wellFormed_applyEntry hwf op)
        (fun o ho => hops o (List.mem_cons_of_mem _ ho))
    have h2 : dbGet (applyEntry st op) k = dbGet st k :=
      dbGet_applyEntry_other hwf (hops op (List.mem_cons_self _ _))
    exact h1.trans h2

/-- Reading a key immediately after Put(k, v) yields v. -/
theorem dbGet_applyEntry_put (st : StoreState) (k v : Str) :
    dbGet (applyEntry st (.put k v)) k = some v := by
  simp [dbGet, dbGetAt, applyEntry, lookupLog]

/-- Reading a key immediately after Delete(k) yields not-found. -/
theorem dbGet_applyEntry_del (st : StoreState) (k : Str) :
    dbGet (applyEntry st (.del k)) k = none := by
  simp [dbGet, dbGetAt, applyEntry, lookupLog]

/-- Modelled from the spec: commits are serialized and a batch is applied as one
atomic transition (sections 3 invariants, 4.2 and 5), so the states observable
by any reader around a Write(batch) are the pre-state and the post-state only. -/
def observableStates (st : StoreState) (b : List WriteOp) : List StoreState :=
  [st, writeBatch st b]

/-- C3: after a successful Put(k, v), a Get(k) with no intervening write to k
returns v with status ok; a subsequent Delete(k) followed by Get(k) yields
NotFound. -/
theorem crud_same_writer_visibility (st : StoreState) (k v : Str)
    (ops : List WriteOp) (hwf : wellFormed st)
    (hops : ∀ op ∈ ops, opKey op ≠ k) :
    dbGet (writeBatch (applyEntry st (.put k v)) ops) k = some v ∧
    getStatus (writeBatch (applyEntry st (.put k v)) ops) k = .ok ∧
    dbGet (applyEntry (writeBatch (applyEntry st (.put k v)) ops) (.del k)) k = none ∧
    getStatus (applyEntry (writeBatch (applyEntry st (.put k v)) ops) (.del k)) k
      = .notFound := by
  have hget : dbGet (writeBatch (applyEntry st (.put k v)) ops) k = some v := by
    have h1 : dbGet (writeBatch (applyEntry st (.put k v)) ops) k
        = dbGet (applyEntry st (.put k v)) k :=
      dbGet_writeBatch_other ops _ (wellFormed_applyEntry hwf _) hops
    exact h1.trans (dbGet_applyEntry_put st k v)
  have hdel : dbGet (applyEntry (writeBatch (applyEntry st (.put k v)) ops) (.del k)) k
      = none := dbGet_applyEntry_del _ k
  refine ⟨hget, ?_, hdel, ?_⟩
  · simp [getStatus, hget]
  · simp [getStatus, hdel]

theorem crud_same_writer_visibility_witness :
    dbGet (writeBatch (applyEntry emptyStore (.put "name".toList "test".toList)) [])
      "name".toList = some "test".toList ∧
    dbGet (applyEntry
        (writeBatch (applyEntry emptyStore (.put "name".toList "test".toList)) [])
        (.del "name".toList)) "name".toList = none := by
  have h := crud_same_writer_visibility emptyStore "name".toList "test".toList []
    wellFormed_emptyStore (by simp)
  exact ⟨h.1, h.2.2.1⟩

/-- C1: snapshot isolation.  If k has value v when the snapshot is taken and
Put(k, v2) then commits, Get without a snapshot returns v2 while Get with the
snapshot returns v, and the snapshot's result stays v after any further batch
of writes. -/
theorem snapshot_isolation (st : StoreState) (k v v2 : Str) (ops : List WriteOp)
    (h : dbGet st k = some v) :
    dbGet (applyEntry st (.put k v2)) k = some v2 ∧
    dbGetAt (applyEntry st (.put k v2)) (getSnapshot st) k = some v ∧
    dbGetAt (writeBatch (applyEntry st (.put k v2)) ops) (getSnapshot st) k
      = some v := by
  have h2 : dbGetAt (applyEntry st (.put k v2)) (getSnapshot st) k = some v := by
    have := dbGetAt_applyEntry_of_bound_le (Nat.le_refl st.seq) (.put k v2) k
    exact this.trans h
  refine ⟨dbGet_applyEntry_put st k v2, h2, ?_⟩
  have h3 : dbGetAt (writeBatch (applyEntry st (.put k v2)) ops) (getSnapshot st) k
      = dbGetAt (applyEntry st (.put k v2)) (getSnapshot st) k :=
    dbGetAt_writeBatch_of_bound_le ops _
      (Nat.le_trans (Nat.le_refl _) (seq_le_applyEntry st _)) k
  exact h3.trans h2

theorem snapshot_isolation_witness :
    dbGetAt
      (writeBatch
        (applyEntry (applyEntry emptyStore
          (.put "snapshot-key".toList "snapshot-value".toList))
          (.put "snapshot-key".toList "snapshot-value-updated".toList))
        [.put "other".toList "w".toList, .del "snapshot-key".toList])
      (getSnapshot (applyEntry emptyStore
        (.put "snapshot-key".toList "snapshot-value".toList)))
      "snapshot-key".toList = some "snapshot-value".toList :=
  (snapshot_isolation
    (applyEntry emptyStore (.put "snapshot-key".toList "snapshot-value".toList))
    "snapshot-key".toList "snapshot-value".toList
    "snapshot-value-updated".toList
    [.put "other".toList "w".toList, .del "snapshot-key".toList]
    (by decide)).2.2

/-- C2: batch atomicity.  With distinct keys k1 = v1 and k2 = v2 present,
writing the single batch (Delete k1, Put k2 v2') yields a post-state where k1
is absent and k2 = v2', and every state observable around the Write shows
either both effects or neither. -/
theorem batch_atomicity (st : StoreState) (k1 k2 v1 v2 v2' : Str)
    (hne : k1 ≠ k2) (h1 : dbGet st k1 = some v1) (h2 : dbGet st k2 = some v2) :
    dbGet (writeBatch st [.del k1, .put k2 v2']) k1 = none ∧
    dbGet (writeBatch st [.del k1, .put k2 v2']) k2 = some v2' ∧
    ∀ s ∈ observableStates st [.del k1, .put k2 v2'],
      (dbGet s k1 = some v1 ∧ dbGet s k2 = some v2) ∨
      (dbGet s k1 = none ∧ dbGet s k2 = some v2') := by
  have hpost1 : dbGet (writeBatch st [.del k1, .put k2 v2']) k1 = none := by
    simp only [writeBatch, List.foldl, dbGet, dbGetAt, applyEntry, lookupLog]
    rw [if_neg (fun h => hne h.1.symm)]
    rw [if_pos (by exact ⟨by trivial, by omega⟩)]
  have hpost2 : dbGet (writeBatch st [.del k1, .put k2 v2']) k2 = some v2' := by
    simp only [writeBatch, List.foldl, dbGet, dbGetAt, applyEntry, lookupLog]
    rw [if_pos (by exact ⟨by trivial, by omega⟩)]
  refine ⟨hpost1, hpost2, ?_⟩
  intro s hs
  simp only [observableStates, List.mem_cons, List.not_mem_nil, or_false] at hs
  rcases hs with rfl | rfl
  · exact Or.inl ⟨h1, h2⟩
  · exact Or.inr ⟨hpost1, hpost2⟩

theorem batch_atomicity_witness :
    dbGet
      (writeBatch
        (writeBatch emptyStore [.put "k1".toList "v1".toList, .put "k2".toList "v2".toList])
        [.del "k1".toList, .put "k2".toList "new-v2".toList])
      "k1".toList = none ∧
    dbGet
      (writeBatch
        (writeBatch emptyStore [.put "k1".toList "v1".toList, .put "k2".toList "v2".toList])
        [.del "k1".toList, .put "k2".toList "new-v2".toList])
      "k2".toList = some "new-v2".toList := by
  have h := batch_atomicity
    (writeBatch emptyStore [.put "k1".toList "v1".toList, .put "k2".toList "v2".toList])
    "k1".toList "k2".toList "v1".toList "v2".toList "new-v2".toList
    (by decide) (by decide) (by decide)
  exact ⟨h.1, h.2.1⟩

/-- Whitespace characters skipped by C strtol (the isspace set of the C
locale). -/
def isSpaceChar (c : Char) : Bool :=
  c == ' ' || c == '\t' || c == '\n' || c == '\x0b' || c == '\x0c' || c == '\r'

/-- Numeric value of a run of decimal digits. -/
def digitsVal (ds : List Char) : Nat :=
  ds.foldl (fun a c => 10 * a + (c.toNat - '0'.toNat)) 0

/-- Largest value of the C type long on the 64-bit targets the demo builds
for. -/
def longMax : Int := 2 ^ 63 - 1

/-- Smallest value of the C type long on the 64-bit targets the demo builds
for. -/
def longMin : Int := -(2 ^ 63)

/-- Clamp to the range of long, as strtol does on overflow. -/
def clampLong (x : Int) : Int :=
  if x > longMax then longMax else if x < longMin then longMin else x

/-- Embedding of strtol(str, nullptr, 10) as used by ParseKey: skip leading
whitespace, read an optional sign and a run of decimal digits (value zero when
no digits follow), clamping to the range of long on overflow. -/
def strtol (s : Str) : Int :=
  match s.dropWhile isSpaceChar with
  | '-' :: t => clampLong (-((digitsVal (t.takeWhile Char.isDigit) : Int)))
  | '+' :: t => clampLong ((digitsVal (t.takeWhile Char.isDigit) : Int))
  | t => clampLong ((digitsVal (t.takeWhile Char.isDigit) : Int))

namespace TwoPartComparator

/-- Embedding of TwoPartComparator::ParseKey (src/examples/main.cc lines
217-222): split at the first colon and parse both components with strtol.
When no colon is present find_first_of returns npos, substr(0, npos) is the
whole string, and npos + 1 wraps to 0 so substr(npos + 1, size) is again the
whole string: both components then parse the whole key. -/
def ParseKey (k : Str) : Int × Int :=
  match k.findIdx? (fun c => c == ':') with
  | some i => (strtol (k.take i), strtol (k.drop (i + 1)))
  | none => (strtol k, strtol k)

/-- Embedding of TwoPartComparator::Compare (src/examples/main.cc lines
199-209): three-way comparison of the parsed (first, second) components. -/
def Compare (a b : Str) : Int :=
  if (ParseKey a).1 < (ParseKey b).1 then -1
  else if (ParseKey b).1 < (ParseKey a).1 then 1
  else if (ParseKey a).2 < (ParseKey b).2 then -1
  else if (ParseKey b).2 < (ParseKey a).2 then 1
  else 0

/-- C8: TwoPartComparator::Compare is a valid total order over byte-string
keys: Compare(a, a) = 0; Compare(a, b) < 0 iff Compare(b, a) > 0; and
Compare(a, b) ≤ 0 with Compare(b, c) ≤ 0 implies Compare(a, c) ≤ 0, for all
keys including those lacking a colon separator. -/
theorem Compare_total_order (a b c : Str) :
    Compare a a = 0 ∧
    (Compare a b < 0 ↔ Compare b a > 0) ∧
    (Compare a b ≤ 0 → Compare b c ≤ 0 → Compare a c ≤ 0) := by
  refine ⟨?_, ?_, ?_⟩
  · simp only [Compare]
    split_ifs <;> omega
  · simp only [Compare, gt_iff_lt]
    split_ifs <;> omega
  · intro h1 h2
    simp only [Compare] at h1 h2 ⊢
    split_ifs at h1 h2 ⊢ <;> omega

theorem Compare_total_order_witness :
    Compare "1:2".toList "1:10".toList ≤ 0 ∧
    Compare "1:10".toList "2:0".toList ≤ 0 ∧
    Compare "1:2".toList "2:0".toList ≤ 0 :=
  ⟨by decide, by decide,
    (Compare_total_order "1:2".toList "1:10".toList "2:0".toList).2.2
      (by decide) (by decide)⟩

end TwoPartComparator

/-- Modelled from the spec: the default comparator orders keys by bytewise
lexicographic comparison (section 2, Key Ordering); its implementation is
absent from src/. -/
def bytewiseCompare : Str → Str → Int
  | [], [] => 0
  | [], _ :: _ => -1
  | _ :: _, [] => 1
  | a :: as, b :: bs =>
    if a.toNat < b.toNat then -1
    else if b.toNat < a.toNat then 1
    else bytewiseCompare as bs

/-- Modelled from the spec: the store keeps visible keys in comparator order
(sections 2 and 3); inserting a key that compares equal to a present key
replaces it, since equal ordering position means the same logical key. -/
def insertKey (cmp : Str → Str → Int) (k : Str) : List Str → List Str
  | [] => [k]
  | h :: t =>
    if cmp k h < 0 then k :: h :: t
    else if cmp k h = 0 then k :: t
    else h :: insertKey cmp k t

/-- Keys visible in the store after the given Puts into an empty store, in
comparator order. -/
def keysAfterPuts (cmp : Str → Str → Int) (ks : List Str) : List Str :=
  ks.foldl (fun acc k => insertKey cmp k acc) []

/-- Modelled from the spec: iterator traversal (section 4.5) over the ordered
key list of a store.  The position is an index into the list; Valid means the
index is in range; the fuel argument bounds the number of Next steps and is
always given as at least the list length. -/
def collectForwardAux (ks : List Str) : Nat → Nat → List Str
  | _, 0 => []
  | i, fuel + 1 =>
    if h : i < ks.length then ks[i] :: collectForwardAux ks (i + 1) fuel
    else []

/-- Forward iteration: SeekToFirst, then Next while Valid (spec section 4.5). -/
def forwardIteration (ks : List Str) : List Str :=
  collectForwardAux ks 0 ks.length

/-- Modelled from the spec: backward traversal; Prev from position zero leaves
the iterator invalid (section 4.5). -/
def collectBackwardAux (ks : List Str) : Nat → Nat → List Str
  | _, 0 => []
  | i, fuel + 1 =>
    if h : i < ks.length then
      ks[i] ::
        (match i with
         | 0 => []
         | j + 1 => collectBackwardAux ks j fuel)
    else []

/-- Reverse iteration: SeekToLast, then Prev while Valid (spec section 4.5);
SeekToLast on an empty store leaves the iterator invalid. -/
def reverseIteration (ks : List Str) : List Str :=
  match ks.length with
  | 0 => []
  | n + 1 => collectBackwardAux ks n (n + 1)

/-- Forward traversal from position i collecting keys while the predicate
holds, stopping at the first key that fails it or at the end (spec
section 4.5; the range loops of src/examples/main.cc lines 133-156). -/
def collectWhileAux (ks : List Str) (p : Str → Bool) : Nat → Nat → List Str
  | _, 0 => []
  | i, fuel + 1 =>
    if h : i < ks.length then
      if p ks[i] then
        ks[i] :: collectWhileAux ks p (i + 1) fuel
      else []
    else []

/-- Seek(target): position at the first key not below target under the
comparator (spec section 4.5); the index is the list length when every key is
below target, leaving the iterator invalid. -/
def seek (cmp : Str → Str → Int) (ks : List Str) (target : Str) : Nat :=
  ks.findIdx (fun k => !(decide (cmp k target < 0)))

/-- Traversal starting at Seek(start) and stopping at the first key not below
limit: the half-open range scan of the demo. -/
def rangeScan (cmp : Str → Str → Int) (ks : List Str) (start limit : Str) :
    List Str :=
  collectWhileAux ks (fun k => decide (cmp k limit < 0)) (seek cmp ks start)
    ks.length

/-- C6: with TwoPartComparator installed at open time, after Put of keys 1:3,
2:3, 2:1 and 2:100 a full forward iteration yields exactly those keys in the
order 1:3, 2:1, 2:3, 2:100 — numeric comparison of the colon-separated
components, not byte-lexicographic order. -/
theorem comparator_iteration_order :
    forwardIteration (keysAfterPuts TwoPartComparator.Compare
        ["1:3".toList, "2:3".toList, "2:1".toList, "2:100".toList])
      = ["1:3".toList, "2:1".toList, "2:3".toList, "2:100".toList] := by
  decide

/-- Strict bytewise order is transitive. -/
theorem bytewiseCompare_lt_trans : ∀ (a b c : Str),
    bytewiseCompare a b < 0 → bytewiseCompare b c < 0 → bytewiseCompare a c < 0 := by
  intro a
  induction a with
  | nil =>
    intro b c h1 h2
    cases b with
    | nil => simp only [bytewiseCompare] at h1; omega
    | cons y ys =>
      cases c with
      | nil => simp only [bytewiseCompare] at h2; omega
      | cons z zs => simp only [bytewiseCompare]; omega
  | cons x xs ih =>
    intro b c h1 h2
    cases b with
    | nil => simp only [bytewiseCompare] at h1; omega
    | cons y ys =>
      cases c with
      | nil => simp only [bytewiseCompare] at h2; omega
      | cons z zs =>
        simp only [bytewiseCompare] at h1 h2 ⊢
        split_ifs at h1 h2 ⊢ <;> first | omega | exact ih ys zs h1 h2

/-- Bytewise comparison is antisymmetric: swapping the arguments negates the
result. -/
theorem bytewiseCompare_antisymm : ∀ (a b : Str),
    bytewiseCompare a b = -bytewiseCompare b a := by
  intro a
  induction a with
  | nil => intro b; cases b <;> simp [bytewiseCompare]
  | cons x xs ih =>
    intro b
    cases b with
    | nil => simp [bytewiseCompare]
    | cons y ys =>
      simp only [bytewiseCompare]
      split_ifs <;> first | omega | exact ih ys

theorem collectForwardAux_eq_drop : ∀ (fuel : Nat) (ks : List Str) (i : Nat),
    ks.length - i ≤ fuel → collectForwardAux ks i fuel = ks.drop i := by
  intro fuel
  induction fuel with
  | zero =>
    intro ks i h
    exact (List.drop_eq_nil_of_le (by omega)).symm
  | succ fuel ih =>
    intro ks i h
    by_cases hi : i < ks.length
    · simp only [collectForwardAux, dif_pos hi]
      rw [ih ks (i + 1) (by omega)]
      exact (List.drop_eq_getElem_cons hi).symm
    · simp only [collectForwardAux, dif_neg hi]
      exact (List.drop_eq_nil_of_le (by omega)).symm

theorem forwardIteration_eq_self (ks : List Str) : forwardIteration ks = ks := by
  rw [forwardIteration, collectForwardAux_eq_drop ks.length ks 0 (by omega)]
  exact List.drop_zero ks

theorem collectBackwardAux_eq_reverse_take : ∀ (fuel n : Nat) (ks : List Str),
    n < ks.length → n + 1 ≤ fuel →
    collectBackwardAux ks n fuel = (ks.take (n + 1)).reverse := by
  intro fuel
  induction fuel with
  | zero => intro n ks _ h2; exact absurd h2 (by omega)
  | succ fuel ih =>
    intro n ks h1 h2
    cases n with
    | zero =>
      simp only [collectBackwardAux, dif_pos h1]
      cases ks with
      | nil => simp at h1
      | cons a t => simp
    | succ j =>
      simp only [collectBackwardAux, dif_pos h1]
      have hti : ks.take (j + 1 + 1) = ks.take (j + 1) ++ [ks[j + 1]] := by
        rw [List.take_succ]
        simp [List.getElem?_eq_getElem h1]
      rw [ih j ks (by omega) (by omega), hti, List.reverse_append]
      rfl

theorem reverseIteration_eq_reverse (ks : List Str) :
    reverseIteration ks = ks.reverse := by
  cases ks with
  | nil => rfl
  | cons a t =>
    show collectBackwardAux (a :: t) t.length (t.length + 1) = (a :: t).reverse
    rw [collectBackwardAux_eq_reverse_take (t.length + 1) t.length (a :: t)
      (by simp) (Nat.le_refl _)]
    rw [show t.length + 1 = (a :: t).length from (List.length_cons a t).symm,
      List.take_length]

theorem collectWhileAux_cons_shift (a : Str) (t : List Str) (p : Str → Bool) :
    ∀ (fuel i : Nat),
    collectWhileAux (a :: t) p (i + 1) fuel = collectWhileAux t p i fuel := by
  intro fuel
  induction fuel with
  | zero => intro i; rfl
  | succ fuel ih =>
    intro i
    by_cases hi : i < t.length
    · have hi' : i + 1 < (a :: t).length := by
        simp only [List.length_cons]; omega
      simp only [collectWhileAux, dif_pos hi, dif_pos hi', List.getElem_cons_succ]
      rw [ih]
    · have hi' : ¬ (i + 1 < (a :: t).length) := by
        simp only [List.length_cons]; omega
      simp only [collectWhileAux, dif_neg hi, dif_neg hi']

theorem collectWhileAux_zero_eq_takeWhile :
    ∀ (ks : List Str) (p : Str → Bool) (fuel : Nat),
    ks.length ≤ fuel → collectWhileAux ks p 0 fuel = ks.takeWhile p := by
  intro ks
  induction ks with
  | nil =>
    intro p fuel h
    cases fuel <;> rfl
  | cons a t ih =>
    intro p fuel h
    cases fuel with
    | zero => exact absurd h (by simp)
    | succ fuel =>
      have h0 : 0 < (a :: t).length := by simp
      simp only [collectWhileAux, dif_pos h0, List.getElem_cons_zero]
      cases hpa : p a with
      | true =>
        rw [if_pos rfl, collectWhileAux_cons_shift,
          ih p fuel (by simp only [List.length_cons] at h; omega),
          List.takeWhile_cons_of_pos hpa]
      | false =>
        rw [if_neg (by simp), List.takeWhile_cons_of_neg (by simp [hpa])]

theorem collectWhileAux_findIdx_eq (q p : Str → Bool) :
    ∀ (ks : List Str) (fuel : Nat), ks.length ≤ fuel →
    collectWhileAux ks p (ks.findIdx fun k => !(q k)) fuel
      = (ks.dropWhile q).takeWhile p := by
  intro ks
  induction ks with
  | nil =>
    intro fuel h
    cases fuel <;> rfl
  | cons a t ih =>
    intro fuel h
    cases hqa : q a with
    | true =>
      have hfi : ((a :: t).findIdx fun k => !(q k))
          = (t.findIdx fun k => !(q k)) + 1 := by
        rw [List.findIdx_cons]
        simp [hqa]
      rw [hfi, collectWhileAux_cons_shift,
        ih fuel (by simp only [List.length_cons] at h; omega),
        List.dropWhile_cons_of_pos hqa]
    | false =>
      have hfi : ((a :: t).findIdx fun k => !(q k)) = 0 := by
        rw [List.findIdx_cons]
        simp [hqa]
      rw [hfi, collectWhileAux_zero_eq_takeWhile _ _ _ h,
        List.dropWhile_cons_of_neg (by simp [hqa])]

/-- On a list that is strictly sorted by R, dropWhile for a predicate that can
never turn from false back to true along R equals filtering it out. -/
theorem dropWhile_eq_filter_of_pairwise {R : Str → Str → Prop} {q : Str → Bool}
    (hq : ∀ a b, R a b → q a = false → q b = false) :
    ∀ {l : List Str}, l.Pairwise R → l.dropWhile q = l.filter (fun k => !(q k)) := by
  intro l
  induction l with
  | nil => intro _; rfl
  | cons a t ih =>
    intro hp
    rcases List.pairwise_cons.mp hp with ⟨ha, ht⟩
    cases hqa : q a with
    | true =>
      rw [List.dropWhile_cons_of_pos hqa, ih ht,
        List.filter_cons_of_neg (by simp [hqa])]
    | false =>
      rw [List.dropWhile_cons_of_neg (by simp [hqa]),
        List.filter_cons_of_pos (by simp [hqa])]
      congr 1
      symm
      rw [List.filter_eq_self]
      intro b hb
      simp [hq a b (ha b hb) hqa]

/-- On a list that is strictly sorted by R, takeWhile for a predicate that is
downward closed along R equals filtering. -/
theorem takeWhile_eq_filter_of_pairwise {R : Str → Str → Prop} {p : Str → Bool}
    (hp : ∀ a b, R a b → p b = true → p a = true) :
    ∀ {l : List Str}, l.Pairwise R → l.takeWhile p = l.filter p := by
  intro l
  induction l with
  | nil => intro _; rfl
  | cons a t ih =>
    intro hpw
    rcases List.pairwise_cons.mp hpw with ⟨ha, ht⟩
    cases hpa : p a with
    | true =>
      rw [List.takeWhile_cons_of_pos hpa, List.filter_cons_of_pos hpa, ih ht]
    | false =>
      rw [List.takeWhile_cons_of_neg (by simp [hpa]),
        List.filter_cons_of_neg (by simp [hpa])]
      symm
      rw [List.filter_eq_nil_iff]
      intro b hb hpb
      have hat : p a = true := hp a b (ha b hb) hpb
      simp [hat] at hpa

/-- C7: forward iteration yields all visible keys in ascending comparator
order; reverse iteration yields exactly the reverse sequence; and a traversal
starting at Seek(start) and stopping at the first key not below limit yields
exactly the keys k with start ≤ k < limit under the comparator. -/
theorem iteration_order_and_range (ks : List Str) (start limit : Str)
    (hs : ks.Pairwise (fun a b => bytewiseCompare a b < 0)) :
    forwardIteration ks = ks ∧
    (forwardIteration ks).Pairwise (fun a b => bytewiseCompare a b < 0) ∧
    reverseIteration ks = (forwardIteration ks).reverse ∧
    rangeScan bytewiseCompare ks start limit
      = ks.filter (fun k =>
          decide (bytewiseCompare start k ≤ 0 ∧ bytewiseCompare k limit < 0)) := by
  have hfwd : forwardIteration ks = ks := forwardIteration_eq_self ks
  refine ⟨hfwd, by rw [hfwd]; exact hs, by rw [hfwd]; exact reverseIteration_eq_reverse ks, ?_⟩
  have h1 : rangeScan bytewiseCompare ks start limit
      = (ks.dropWhile (fun k => decide (bytewiseCompare k start < 0))).takeWhile
          (fun k => decide (bytewiseCompare k limit < 0)) :=
    collectWhileAux_findIdx_eq (fun k => decide (bytewiseCompare k start < 0))
      (fun k => decide (bytewiseCompare k limit < 0)) ks ks.length (Nat.le_refl _)
  have h2 : ks.dropWhile (fun k => decide (bytewiseCompare k start < 0))
      = ks.filter (fun k => !(decide (bytewiseCompare k start < 0))) := by
    refine dropWhile_eq_filter_of_pairwise ?_ hs
    intro a b hr hqa
    simp only [decide_eq_false_iff_not] at hqa ⊢
    intro hb
    exact hqa (bytewiseCompare_lt_trans a b start hr hb)
  have h3 : (ks.filter (fun k => !(decide (bytewiseCompare k start < 0)))).takeWhile
        (fun k => decide (bytewiseCompare k limit < 0))
      = (ks.filter (fun k => !(decide (bytewiseCompare k start < 0)))).filter
        (fun k => decide (bytewiseCompare k limit < 0)) := by
    refine takeWhile_eq_filter_of_pairwise ?_ (List.Pairwise.filter _ hs)
    intro a b hr hpb
    simp only [decide_eq_true_eq] at hpb ⊢
    exact bytewiseCompare_lt_trans a b limit hr hpb
  rw [h1, h2, h3, List.filter_filter]
  refine List.filter_congr ?_
  intro k _
  have hflip : bytewiseCompare start k ≤ 0 ↔ ¬(bytewiseCompare k start < 0) := by
    rw [bytewiseCompare_antisymm start k]
    omega
  by_cases hl : bytewiseCompare k limit < 0 <;>
    by_cases hst : bytewiseCompare k start < 0 <;>
      simp [hl, hst, hflip]

theorem iteration_order_and_range_witness :
    rangeScan bytewiseCompare
        ["iter-key-0".toList, "iter-key-1".toList, "iter-key-2".toList]
        "iter-key-1".toList "iter-key-2".toList
      = [ "iter-key-0".toList, "iter-key-1".toList,
          "iter-key-2".toList ].filter (fun k =>
          decide (bytewiseCompare "iter-key-1".toList k ≤ 0 ∧
            bytewiseCompare k "iter-key-2".toList < 0)) :=
  (iteration_order_and_range
    ["iter-key-0".toList, "iter-key-1".toList, "iter-key-2".toList]
    "iter-key-1".toList "iter-key-2".toList (by decide)).2.2.2

/-- Modelled from the spec: a store persists the name of the comparator it was
created with (section 4.6); its implementation is absent from src/. -/
structure PersistedStore where
  comparatorName : Str
  contents : StoreState
deriving DecidableEq

/-- Modelled from the spec: DB::Open compares the name of the comparator given
in the options with the persisted one and rejects a mismatch with
InvalidArgument rather than risking silent misordering, leaving the persisted
store untouched (sections 4.6 and 7). -/
def DBOpen (optionsComparatorName : Str) (db : PersistedStore) :
    Status × PersistedStore :=
  if optionsComparatorName = db.comparatorName then (Status.ok, db)
  else (Status.invalidArgument, db)

/-- Name returned by TwoPartComparator::Name (src/examples/main.cc line 211). -/
def twoPartComparatorName : Str := "TwoPartComparator".toList

/-- Modelled from the spec: the name the default bytewise comparator persists
for a store created with default options (section 4.6); absent from src/. -/
def defaultComparatorName : Str := "leveldb.BytewiseComparator".toList

/-- C5: opening an existing store created with the default comparator using
options whose comparator is the differently named TwoPartComparator fails with
InvalidArgument and leaves the existing store unchanged. -/
theorem open_wrong_comparator_rejected (db : PersistedStore)
    (h : db.comparatorName = defaultComparatorName) :
    (DBOpen twoPartComparatorName db).1 = Status.invalidArgument ∧
    (DBOpen twoPartComparatorName db).2 = db := by
  have hne : twoPartComparatorName ≠ db.comparatorName := by
    rw [h]
    decide
  simp [DBOpen, hne]

theorem open_wrong_comparator_rejected_witness :
    (DBOpen twoPartComparatorName
      { comparatorName := defaultComparatorName, contents := emptyStore }).1
        = Status.invalidArgument ∧
    (DBOpen twoPartComparatorName
      { comparatorName := defaultComparatorName, contents := emptyStore }).2
        = { comparatorName := defaultComparatorName, contents := emptyStore } :=
  open_wrong_comparator_rejected
    { comparatorName := defaultComparatorName, contents := emptyStore } rfl

/-- A half-open key range as passed to GetApproximateSizes
(src/examples/main.cc lines 353-355). -/
structure KeyRange where
  start : Str
  limit : Str

/-- Modelled from the spec: best-effort, non-authoritative estimate of the
bytes spanned by one half-open range — here the total byte length of committed
log entries whose key lies in the range (section 6). -/
def approximateSize (st : StoreState) (r : KeyRange) : Nat :=
  (st.log.filter (fun e =>
      decide (bytewiseCompare r.start e.1 ≤ 0)
        && decide (bytewiseCompare e.1 r.limit < 0))).foldl
    (fun acc e =>
      acc + e.1.length +
        (match e.2.2 with
         | .putv v => v.length
         | .delv => 0)) 0

/-- Modelled from the spec: GetApproximateSizes fills exactly one output size
per input range and returns normally (section 6). -/
def GetApproximateSizes (st : StoreState) (ranges : List KeyRange) : List Nat :=
  ranges.map (approximateSize st)

/-- C9: GetApproximateSizes assigns exactly one size to each of the n requested
ranges, for every store contents and every list of valid ranges. -/
theorem getApproximateSizes_one_per_range (st : StoreState)
    (ranges : List KeyRange) :
    (GetApproximateSizes st ranges).length = ranges.length := by
  simp [GetApproximateSizes]

/-- Dropping the leading run of spaces is the same as dropping up to the first
non-space index. -/
theorem dropWhile_space_eq_drop : ∀ s : Str,
    s.dropWhile (fun c => c == ' ') = s.drop (s.findIdx fun c => !(c == ' ')) := by
  intro s
  induction s with
  | nil => rfl
  | cons a t ih =>
    rw [List.findIdx_cons]
    cases hpa : (a == ' ') with
    | true =>
      rw [List.dropWhile_cons]
      simp only [hpa, Bool.not_true, cond_false, List.drop_succ_cons, if_true]
      exact ih
    | false =>
      rw [List.dropWhile_cons_of_neg (by simp [hpa])]
      simp only [hpa, Bool.not_false, cond_true, List.drop_zero]

/-- Dropping the trailing run of spaces keeps the prefix up to the last
non-space position, located through the reversed string. -/
theorem rdropWhile_space_eq_take (s : Str) :
    s.rdropWhile (fun c => c == ' ')
      = s.take (s.length - s.reverse.findIdx (fun c => !(c == ' '))) := by
  simp only [List.rdropWhile]
  rw [dropWhile_space_eq_drop s.reverse, List.drop_reverse, List.reverse_reverse]

/-- When the head fails the predicate, dropWhile does not shorten the
rdropWhile of the same list further. -/
theorem dropWhile_rdropWhile_of_head_neg {p : Char → Bool} {c : Char} {t : Str}
    (hc : ¬ p c = true) :
    ((c :: t).rdropWhile p).dropWhile p = (c :: t).rdropWhile p := by
  rcases hr : (c :: t).rdropWhile p with _ | ⟨d, u⟩
  · rfl
  · have hpre : (c :: t).rdropWhile p <+: (c :: t) := List.rdropWhile_prefix _ _
    rw [hr] at hpre
    obtain ⟨r, hrr⟩ := hpre
    rw [List.cons_append] at hrr
    injection hrr with h1 h2
    subst h1
    exact List.dropWhile_cons_of_neg hc

namespace CustomFilterPolicy

/-- Embedding of CustomFilterPolicy::RemoveTrailingSpaces (src/examples/main.cc
lines 297-306): find_first_not_of(' ') returning the empty string at npos,
then find_last_not_of(' ') and substr(strBegin, strEnd - strBegin + 1).
find_last_not_of yields the largest non-space index, i.e. length - 1 - j where
j is the first non-space position of the reversed string. -/
def RemoveTrailingSpaces (s : Str) : Str :=
  match s.findIdx? (fun c => !(c == ' ')) with
  | none => []
  | some strBegin =>
    match s.reverse.findIdx? (fun c => !(c == ' ')) with
    | none => []
    | some j => (s.drop strBegin).take (s.length - 1 - j - strBegin + 1)

/-- RemoveTrailingSpaces strips both the leading and the trailing run of
spaces. -/
theorem RemoveTrailingSpaces_eq : ∀ s : Str,
    RemoveTrailingSpaces s
      = (s.rdropWhile (fun c => c == ' ')).dropWhile (fun c => c == ' ') := by
  intro s
  induction s with
  | nil => rfl
  | cons c t ih =>
    by_cases hc : (c == ' ') = true
    · rcases ht : t.findIdx? (fun x => !(x == ' ')) with _ | bt
      · have hall : ∀ x ∈ c :: t, (x == ' ') = true := by
          intro x hx
          rcases List.mem_cons.mp hx with rfl | hx
          · exact hc
          · have := List.findIdx?_eq_none_iff.mp ht x hx
            simpa using this
        have hsnone : (c :: t).findIdx? (fun x => !(x == ' ')) = none := by
          rw [List.findIdx?_eq_none_iff]
          intro x hx
          simp [hall x hx]
        have hrd : (c :: t).rdropWhile (fun x => x == ' ') = [] :=
          List.rdropWhile_eq_nil_iff.mpr (fun x hx => hall x hx)
        simp only [RemoveTrailingSpaces, hsnone, hrd, List.dropWhile_nil]
      · have hsb : (c :: t).findIdx? (fun x => !(x == ' ')) = some (bt + 1) := by
          rw [List.findIdx?_cons, if_neg (by simp [hc]), List.findIdx?_start_succ,
            ht]
          rfl
        obtain ⟨xw, hxw_mem, hxw⟩ : ∃ x, x ∈ t ∧ (!(x == ' ')) = true := by
          have hsome : (t.findIdx? (fun x => !(x == ' '))).isSome = true := by
            rw [ht]
            rfl
          rw [List.findIdx?_isSome] at hsome
          exact List.any_eq_true.mp hsome
        obtain ⟨jt, hjt⟩ :
            ∃ jt, t.reverse.findIdx? (fun x => !(x == ' ')) = some jt := by
          have hsome : (t.reverse.findIdx? (fun x => !(x == ' '))).isSome = true := by
            rw [List.findIdx?_isSome, List.any_reverse]
            exact List.any_eq_true.mpr ⟨xw, hxw_mem, hxw⟩
          exact Option.isSome_iff_exists.mp hsome
        have hjtlt : jt < t.length := by
          have h1 := (List.findIdx?_eq_some_iff_findIdx_eq.mp hjt).1
          simpa using h1
        have hsr : (c :: t).reverse.findIdx? (fun x => !(x == ' ')) = some jt := by
          rw [List.reverse_cons, List.findIdx?_append, hjt]
          rfl
        have hrdt_ne : t.rdropWhile (fun x => x == ' ') ≠ [] := by
          rw [Ne, List.rdropWhile_eq_nil_iff]
          intro hallt
          have h1 := hallt xw hxw_mem
          rw [h1] at hxw
          simp at hxw
        have hrd : (c :: t).rdropWhile (fun x => x == ' ')
            = c :: t.rdropWhile (fun x => x == ' ') := by
          simp only [List.rdropWhile, List.reverse_cons]
          rw [List.dropWhile_append]
          have hne' : t.reverse.dropWhile (fun x => x == ' ') ≠ [] := by
            intro hnil
            apply hrdt_ne
            simp only [List.rdropWhile, hnil, List.reverse_nil]
          rw [if_neg (by simpa [List.isEmpty_iff] using hne')]
          rw [List.reverse_append]
          simp
        have hLHS : RemoveTrailingSpaces (c :: t) = RemoveTrailingSpaces t := by
          simp only [RemoveTrailingSpaces, hsb, hsr, ht, hjt, List.drop_succ_cons,
            List.length_cons]
          congr 1
          omega
        rw [hLHS, ih, hrd, List.dropWhile_cons]
        simp [hc]
    · have hsb : (c :: t).findIdx? (fun x => !(x == ' ')) = some 0 := by
        rw [List.findIdx?_cons, if_pos (by simp [hc])]
      obtain ⟨j, hj⟩ :
          ∃ j, (c :: t).reverse.findIdx? (fun x => !(x == ' ')) = some j := by
        have hsome : ((c :: t).reverse.findIdx? (fun x => !(x == ' '))).isSome
            = true := by
          rw [List.findIdx?_isSome, List.any_reverse]
          exact List.any_eq_true.mpr ⟨c, List.mem_cons_self c t, by simp [hc]⟩
        exact Option.isSome_iff_exists.mp hsome
      have hjlt : j < t.length + 1 := by
        have h1 := (List.findIdx?_eq_some_iff_findIdx_eq.mp hj).1
        simpa using h1
      have hjidx : (c :: t).reverse.findIdx (fun x => !(x == ' ')) = j :=
        (List.findIdx?_eq_some_iff_findIdx_eq.mp hj).2
      have hLHS : RemoveTrailingSpaces (c :: t)
          = (c :: t).take ((c :: t).length - j) := by
        simp only [RemoveTrailingSpaces, hsb, hj, List.drop_zero, List.length_cons]
        congr 1
        omega
      rw [hLHS]
      have hrt : (c :: t).rdropWhile (fun x => x == ' ')
          = (c :: t).take ((c :: t).length - j) := by
        rw [rdropWhile_space_eq_take (c :: t), hjidx]
      rw [← hrt]
      refine (dropWhile_rdropWhile_of_head_neg ?_).symm
      exact hc

/-- Modelled from the spec: the builtin bloom filter created by
NewBloomFilterPolicy(100) (src/examples/main.cc line 274), whose implementation
is absent from src/.  Per the contract of section 4.7 a key of the build set
must always may-match; the summary is modelled as the recorded key set. -/
def builtinCreateFilter (keys : List Str) : List Str := keys

/-- Modelled from the spec: the builtin bloom filter membership test, realized
on the modelled summary as exact membership. -/
def builtinKeyMayMatch (key : Str) (summary : List Str) : Bool :=
  summary.contains key

/-- Embedding of CustomFilterPolicy::CreateFilter (src/examples/main.cc lines
279-288): each key is trimmed into the vector `trimmed`, and the builtin
CreateFilter is then called on the n slices starting at &trimmed[i], where i
holds the value n after the loop — one past the end of the vector.  The n
out-of-range vector reads are modelled as failure (none). -/
def CreateFilter (keys : List Str) : Option (List Str) :=
  let n := keys.length
  let trimmed := keys.map RemoveTrailingSpaces
  match (List.range n).mapM (fun j => trimmed[n + j]?) with
  | some ks => some (builtinCreateFilter ks)
  | none => none

/-- Embedding of CustomFilterPolicy::KeyMayMatch (src/examples/main.cc lines
290-294): trim the queried key, then ask the builtin filter. -/
def KeyMayMatch (key : Str) (summary : List Str) : Bool :=
  builtinKeyMayMatch (RemoveTrailingSpaces key) summary

/-- The build set of the Filter demo (src/examples/main.cc lines 321-332). -/
def demoKeys : List Str :=
  ["hello".toList, " hello".toList, "hello ".toList, " hello ".toList]

/-- The summary the code intends to build: the builtin filter over the trimmed
keys, read from the start of the vector. -/
def intendedFilter (keys : List Str) : List Str :=
  builtinCreateFilter (keys.map RemoveTrailingSpaces)

/-- C4: on the demo build set CreateFilter reads one past the end of the
trimmed vector, so no summary over the build keys is produced and the
no-false-negative contract is not established by the code; the intended call,
reading from the start of the vector, does satisfy the contract for every demo
key. -/
theorem createFilter_reads_out_of_bounds :
    CreateFilter demoKeys = none ∧
    demoKeys.all (fun k => KeyMayMatch k (intendedFilter demoKeys)) = true := by
  constructor
  · decide
  · decide

/-- C10: RemoveTrailingSpaces removes leading as well as trailing spaces,
despite its name: it returns its input with the leading and trailing runs of
spaces stripped, the empty string when the input is empty or all spaces; and
KeyMayMatch answers identically on any two keys sharing the same
space-stripped core, given the same summary. -/
theorem removeTrailingSpaces_trims_both_ends (s k1 k2 : Str)
    (summary : List Str)
    (hcore : (k1.rdropWhile (fun c => c == ' ')).dropWhile (fun c => c == ' ')
        = (k2.rdropWhile (fun c => c == ' ')).dropWhile (fun c => c == ' ')) :
    RemoveTrailingSpaces s
        = (s.rdropWhile (fun c => c == ' ')).dropWhile (fun c => c == ' ') ∧
    ((∀ c ∈ s, c = ' ') → RemoveTrailingSpaces s = []) ∧
    KeyMayMatch k1 summary = KeyMayMatch k2 summary := by
  refine ⟨RemoveTrailingSpaces_eq s, ?_, ?_⟩
  · intro hall
    rw [RemoveTrailingSpaces_eq s]
    have hnil : s.rdropWhile (fun c => c == ' ') = [] :=
      List.rdropWhile_eq_nil_iff.mpr (fun x hx => by simp [hall x hx])
    rw [hnil]
    rfl
  · simp only [KeyMayMatch]
    rw [RemoveTrailingSpaces_eq k1, RemoveTrailingSpaces_eq k2, hcore]

theorem removeTrailingSpaces_trims_both_ends_witness :
    KeyMayMatch "hello ".toList ["hello".toList]
      = KeyMayMatch " hello".toList ["hello".toList] :=
  (removeTrailingSpaces_trims_both_ends " x ".toList "hello ".toList
    " hello".toList ["hello".toList] (by decide)).2.2

end CustomFilterPolicy

end LevelDB
